import Mathlib

/-!
Verification of the dependency-closure pruning engine
(`src/utils/remove_unused/remove.py`).

The engine works on an indexed corpus of XML definitions of four kinds
(diagnoses, symptoms, examinations, treatments).  We embed each definition
as the record of its id attribute together with the text values returned by
the XPath queries the script performs on its subtree.  All set-valued
computations of the script (`_texts`, the `precompute_maps` reference maps,
the two worklist closures, the outer fixed-point loop of `main`, and the
deletion-list diff) are reproduced as executable functions on `Finset
String`.
-/

namespace HAO

/-- Embedding of Python's `str.strip()`: drop leading and trailing
whitespace characters (the identifiers involved are ASCII). -/
def pyStrip (s : String) : String :=
  ⟨((s.data.dropWhile Char.isWhitespace).reverse.dropWhile Char.isWhitespace).reverse⟩

/-- Embedding of Python's `str.upper()` on the ASCII identifiers involved. -/
def pyUpper (s : String) : String := ⟨s.data.map Char.toUpper⟩


/-- One `GameDBMedicalCondition` element: its `ID` attribute and the text
values of `.//Symptoms//GameDBSymptomRef`, `.//Examinations//ExaminationRef`
and `.//Treatments//TreatmentRef` under it. -/
structure DiagDef where
  id : String
  symRefs : List String
  examRefs : List String
  treatRefs : List String
deriving DecidableEq

/-- One `GameDBSymptom` element: its `ID` attribute and the text values of
its examination, treatment and `CollapseSymptomRef` reference nodes. -/
structure SymDef where
  id : String
  examRefs : List String
  treatRefs : List String
  collapseRefs : List String
deriving DecidableEq

/-- One `GameDBExamination` element: its `ID` attribute and the text values
of its `LabTestingExaminationRef` nodes. -/
structure ExamDef where
  id : String
  labPeers : List String
deriving DecidableEq

/-- One `GameDBTreatment` element: its `ID` attribute, the text values of
its `TreatmentType` nodes and of its `Complication//SymptomRef` nodes. -/
structure TreatDef where
  id : String
  treatmentTypes : List String
  complicationRefs : List String
deriving DecidableEq

/-- The parsed corpus: all definition elements found in the XML files,
by kind (the per-id grouping of `Index` is recovered by filtering). -/
structure Corpus where
  diagnoses : List DiagDef
  symptoms : List SymDef
  exams : List ExamDef
  treats : List TreatDef
deriving DecidableEq

/-- The `_texts` helper: strip every string and discard empty results
(`{s.strip() for s in nodes if s and s.strip()}`). -/
def texts (l : List String) : Finset String :=
  ((l.map pyStrip).filter (fun s => s != "")).toFinset

lemma mem_texts {l : List String} {x : String} :
    x ∈ texts l ↔ (∃ s ∈ l, pyStrip s = x) ∧ x ≠ "" := by
  simp [texts, List.mem_filter, List.mem_map, bne_iff_ne]

/-- Union of `g d` over all entries of a list (the repeated `update` calls
of `precompute_maps`). -/
def unionOver {α : Type} (l : List α) (g : α → Finset String) : Finset String :=
  l.foldr (fun d acc => g d ∪ acc) ∅

lemma mem_unionOver {α : Type} {l : List α} {g : α → Finset String} {x : String} :
    x ∈ unionOver l g ↔ ∃ d ∈ l, x ∈ g d := by
  induction l with
  | nil => simp [unionOver]
  | cons a t ih => simp [unionOver, List.foldr_cons, Finset.mem_union] at ih ⊢; rw [ih]

/-- Diagnosis elements admitted into the index (`ID` attribute strips to a
non-empty string, `build_index`). -/
def diagDefs (c : Corpus) : List DiagDef :=
  c.diagnoses.filter (fun d => pyStrip d.id != "")

/-- `diag_sym_refs`: union of stripped `GameDBSymptomRef` texts over all
indexed diagnosis definitions. -/
def diagSymRefs (c : Corpus) : Finset String :=
  unionOver (diagDefs c) (fun d => texts d.symRefs)

/-- `diag_exam_refs`. -/
def diagExamRefs (c : Corpus) : Finset String :=
  unionOver (diagDefs c) (fun d => texts d.examRefs)

/-- `diag_treat_refs`. -/
def diagTreatRefs (c : Corpus) : Finset String :=
  unionOver (diagDefs c) (fun d => texts d.treatRefs)

/-- The definitions indexed under symptom id `s` (`idx.symptoms[s]`):
elements whose stripped `ID` equals `s`; the index has no empty key. -/
def symDefs (c : Corpus) (s : String) : List SymDef :=
  if s = "" then [] else c.symptoms.filter (fun d => pyStrip d.id == s)

/-- `symptom_to_exams[s]`, unioned across all definitions of `s`. -/
def symptomToExams (c : Corpus) (s : String) : Finset String :=
  unionOver (symDefs c s) (fun d => texts d.examRefs)

/-- `symptom_to_treats[s]`. -/
def symptomToTreats (c : Corpus) (s : String) : Finset String :=
  unionOver (symDefs c s) (fun d => texts d.treatRefs)

/-- `symptom_collapse[s]`. -/
def symptomCollapse (c : Corpus) (s : String) : Finset String :=
  unionOver (symDefs c s) (fun d => texts d.collapseRefs)

/-- `set(idx.symptoms.keys())`: ids with at least one symptom definition. -/
def definedSymptoms (c : Corpus) : Finset String :=
  ((c.symptoms.map (fun d => pyStrip d.id)).filter (fun s => s != "")).toFinset

/-- The definitions indexed under examination id `e` (`idx.exams[e]`). -/
def examDefs (c : Corpus) (e : String) : List ExamDef :=
  if e = "" then [] else c.exams.filter (fun d => pyStrip d.id == e)

/-- `set(idx.exams.keys())`. -/
def definedExams (c : Corpus) : Finset String :=
  ((c.exams.map (fun d => pyStrip d.id)).filter (fun s => s != "")).toFinset

/-- `exam_adj[a]`: the undirected lab-peer adjacency.  `precompute_maps`
inserts `exam_adj[eid].add(p)` and `exam_adj[p].add(eid)` for every peer
`p` declared by a definition of the indexed exam `eid`, so the neighbours
of `a` are the peers its own definitions declare plus every indexed exam
declaring `a` as a peer. -/
def examAdj (c : Corpus) (a : String) : Finset String :=
  unionOver (examDefs c a) (fun d => texts d.labPeers) ∪
    ((c.exams.filter
        (fun d => pyStrip d.id != "" && decide (a ∈ texts d.labPeers))).map
      (fun d => pyStrip d.id)).toFinset

/-- The definitions indexed under treatment id `t` (`idx.treats[t]`). -/
def treatDefs (c : Corpus) (t : String) : List TreatDef :=
  if t = "" then [] else c.treats.filter (fun d => pyStrip d.id == t)

/-- `set(idx.treats.keys())`. -/
def definedTreats (c : Corpus) : Finset String :=
  ((c.treats.map (fun d => pyStrip d.id)).filter (fun s => s != "")).toFinset

/-- `t in treat_is_surgery`: some definition of `t` declares a
`TreatmentType` text whose strip is non-empty and upper-cases to
`"SURGERY"`. -/
def treatIsSurgery (c : Corpus) (t : String) : Bool :=
  (treatDefs c t).any
    (fun d => (d.treatmentTypes.map pyStrip).any
      (fun tt => tt != "" && pyUpper tt == "SURGERY"))

/-- `treat_complication_syms[t]`, unioned across definitions. -/
def treatComplications (c : Corpus) (t : String) : Finset String :=
  unionOver (treatDefs c t) (fun d => texts d.complicationRefs)

/-! ### Generic worklist closure

`closure_collapse_symptoms` and `closure_equiv_exams` are both breadth-first
saturations of a seed set under a successor map `f`, computing the least
superset of the seed closed under `f` at each member.  We realise the
saturation by iterating the one-round expansion `cStep` enough times: once
no round adds an element the set is stable, and with all successors inside
a finite universe `U` stability is forced within `(seed ∪ U).card + 1`
rounds. -/

/-- One saturation round: add every successor of every current member. -/
def cStep (f : String → Finset String) (s : Finset String) : Finset String :=
  s ∪ s.biUnion f

/-- Iterated saturation rounds. -/
def cIter (f : String → Finset String) : Nat → Finset String → Finset String
  | 0, s => s
  | n + 1, s => cIter f n (cStep f s)

/-- The closure of `seed` under `f`, with fuel sufficient whenever every
`f`-image lies in `U`. -/
def clos (f : String → Finset String) (U seed : Finset String) : Finset String :=
  cIter f ((seed ∪ U).card + 1) seed

lemma subset_cStep (f : String → Finset String) (s : Finset String) : s ⊆ cStep f s :=
  Finset.subset_union_left

lemma cIter_succ_out (f : String → Finset String) (n : Nat) (s : Finset String) :
    cIter f (n + 1) s = cStep f (cIter f n s) := by
  induction n generalizing s with
  | zero => rfl
  | succ m ih =>
      show cIter f (m + 1) (cStep f s) = cStep f (cIter f (m + 1) s)
      rw [ih (cStep f s)]; rfl

lemma subset_cIter (f : String → Finset String) (n : Nat) (s : Finset String) :
    s ⊆ cIter f n s := by
  induction n generalizing s with
  | zero => exact subset_rfl
  | succ m ih => exact (subset_cStep f s).trans (ih (cStep f s))

lemma cIter_subset_succ (f : String → Finset String) (n : Nat) (s : Finset String) :
    cIter f n s ⊆ cIter f (n + 1) s := by
  rw [cIter_succ_out]; exact subset_cStep f _

lemma cIter_least {f : String → Finset String} {T : Finset String}
    (hT : ∀ a ∈ T, f a ⊆ T) (n : Nat) {s : Finset String} (hs : s ⊆ T) :
    cIter f n s ⊆ T := by
  induction n generalizing s with
  | zero => exact hs
  | succ m ih =>
      refine ih (Finset.union_subset hs (Finset.biUnion_subset.2 ?_))
      exact fun a ha => hT a (hs ha)

lemma cIter_subset_bound {f : String → Finset String} {U : Finset String}
    (hU : ∀ a, f a ⊆ U) (n : Nat) (s : Finset String) :
    cIter f n s ⊆ s ∪ U :=
  cIter_least (fun a _ => (hU a).trans Finset.subset_union_right) n
    Finset.subset_union_left

lemma cIter_progress (f : String → Finset String) (s : Finset String) :
    ∀ n : Nat, cStep f (cIter f n s) = cIter f n s ∨
      s.card + n ≤ (cIter f n s).card := by
  intro n
  induction n with
  | zero => exact Or.inr (by simp [cIter])
  | succ m ih =>
      rcases ih with h | h
      · left
        rw [cIter_succ_out, h, h]
      · by_cases heq : cStep f (cIter f m s) = cIter f m s
        · left
          rw [cIter_succ_out, heq, heq]
        · right
          have hss : cIter f m s ⊂ cIter f (m + 1) s := by
            rw [cIter_succ_out]
            exact (subset_cStep f _).ssubset_of_ne (fun h2 => heq h2.symm)
          have := Finset.card_lt_card hss
          omega

lemma clos_fixed {f : String → Finset String} {U : Finset String}
    (hU : ∀ a, f a ⊆ U) (seed : Finset String) :
    cStep f (clos f U seed) = clos f U seed := by
  rcases cIter_progress f seed ((seed ∪ U).card + 1) with h | h
  · exact h
  · exfalso
    have hb := Finset.card_le_card (cIter_subset_bound hU ((seed ∪ U).card + 1) seed)
    omega

lemma clos_closed {f : String → Finset String} {U : Finset String}
    (hU : ∀ a, f a ⊆ U) (seed : Finset String) :
    ∀ a ∈ clos f U seed, f a ⊆ clos f U seed := by
  intro a ha
  have h := clos_fixed hU seed
  have hbi : (clos f U seed).biUnion f ⊆ clos f U seed := by
    rw [← Finset.union_eq_left]
    exact h
  exact (Finset.subset_biUnion_of_mem f ha).trans hbi

lemma subset_clos (f : String → Finset String) (U seed : Finset String) :
    seed ⊆ clos f U seed :=
  subset_cIter f _ seed

lemma clos_least {f : String → Finset String} {T : Finset String}
    (hT : ∀ a ∈ T, f a ⊆ T) {U seed : Finset String} (hs : seed ⊆ T) :
    clos f U seed ⊆ T :=
  cIter_least hT _ hs

lemma clos_empty (f : String → Finset String) (U : Finset String) :
    clos f U ∅ = ∅ :=
  Finset.subset_empty.1 (clos_least (T := ∅) (fun a ha => absurd ha (by simp)) subset_rfl)

/-! ### The outer fixed-point loop of `main` -/

/-- Universe of ids the kept-symptom set can ever contain. -/
def allCollapse (c : Corpus) : Finset String :=
  unionOver c.symptoms (fun d => texts d.collapseRefs)

/-- All examination ids referenced from symptom definitions. -/
def allSymExams (c : Corpus) : Finset String :=
  unionOver c.symptoms (fun d => texts d.examRefs)

/-- All treatment ids referenced from symptom definitions. -/
def allSymTreats (c : Corpus) : Finset String :=
  unionOver c.symptoms (fun d => texts d.treatRefs)

/-- All lab-peer ids declared by examination definitions. -/
def allPeers (c : Corpus) : Finset String :=
  unionOver c.exams (fun d => texts d.labPeers)

/-- All complication symptom ids declared by treatment definitions. -/
def allCompl (c : Corpus) : Finset String :=
  unionOver c.treats (fun d => texts d.complicationRefs)

/-- Universe bound for `kept_symptoms`. -/
def USym (c : Corpus) : Finset String := diagSymRefs c ∪ allCollapse c ∪ allCompl c

/-- Universe bound for `used_exams`. -/
def UExam (c : Corpus) : Finset String :=
  diagExamRefs c ∪ allSymExams c ∪ (allPeers c ∪ definedExams c)

/-- Universe bound for `used_treats`. -/
def UTreat (c : Corpus) : Finset String := diagTreatRefs c ∪ allSymTreats c

/-- The mutable state of `main`'s loop: `kept_symptoms`, `used_exams`,
`used_treats`. -/
@[ext] structure St where
  ks : Finset String
  ue : Finset String
  ut : Finset String
deriving DecidableEq

/-- Componentwise inclusion of loop states. -/
def stLE (a b : St) : Prop := a.ks ⊆ b.ks ∧ a.ue ⊆ b.ue ∧ a.ut ⊆ b.ut

lemma stLE_refl (a : St) : stLE a a := ⟨subset_rfl, subset_rfl, subset_rfl⟩

lemma stLE_trans {a b c : St} (h1 : stLE a b) (h2 : stLE b c) : stLE a c :=
  ⟨h1.1.trans h2.1, h1.2.1.trans h2.2.1, h1.2.2.trans h2.2.2⟩

/-- One pass of the `while True` body of `main`: collapse closure on
symptoms, downstream expansion into exams/treats, lab-equivalence closure
on exams, then complication symptoms of used surgeries. -/
def passC (c : Corpus) (st : St) : St :=
  let ks1 := clos (symptomCollapse c) (allCollapse c) st.ks
  let ue1 := st.ue ∪ ks1.biUnion (symptomToExams c)
  let ut1 := st.ut ∪ ks1.biUnion (symptomToTreats c)
  let ue2 := clos (examAdj c) (allPeers c ∪ definedExams c) ue1
  let ks2 := ks1 ∪
    (ut1.filter (fun t => treatIsSurgery c t = true)).biUnion (treatComplications c)
  ⟨ks2, ue2, ut1⟩

/-- The initial state: the diagnosis-level reference unions. -/
def st0 (c : Corpus) : St := ⟨diagSymRefs c, diagExamRefs c, diagTreatRefs c⟩

/-- Iterating the loop body from the initial state. -/
def passIter (c : Corpus) : Nat → St
  | 0 => st0 c
  | n + 1 => passC c (passIter c n)

/-- Rounds sufficient to reach the loop's fixed point. -/
def stFuel (c : Corpus) : Nat :=
  (st0 c).ks.card + (st0 c).ue.card + (st0 c).ut.card +
    ((USym c).card + (UExam c).card + (UTreat c).card) + 1

/-- The state at which `main`'s loop exits (its fixed point). -/
def fixSt (c : Corpus) : St := passIter c (stFuel c)

lemma stLE_passC (c : Corpus) (st : St) : stLE st (passC c st) := by
  refine ⟨?_, ?_, ?_⟩
  · exact (subset_clos _ _ _).trans Finset.subset_union_left
  · exact Finset.subset_union_left.trans (subset_clos _ _ _)
  · exact Finset.subset_union_left

lemma passIter_succ_out (c : Corpus) (n : Nat) :
    passIter c (n + 1) = passC c (passIter c n) := rfl

lemma stLE_passIter_succ (c : Corpus) (n : Nat) :
    stLE (passIter c n) (passIter c (n + 1)) :=
  stLE_passC c (passIter c n)

lemma stLE_st0_passIter (c : Corpus) (n : Nat) : stLE (st0 c) (passIter c n) := by
  induction n with
  | zero => exact stLE_refl _
  | succ m ih => exact stLE_trans ih (stLE_passIter_succ c m)

lemma symptomCollapse_subset_allCollapse (c : Corpus) (s : String) :
    symptomCollapse c s ⊆ allCollapse c := by
  intro x hx
  rw [symptomCollapse, mem_unionOver] at hx
  rw [allCollapse, mem_unionOver]
  obtain ⟨d, hd, hxd⟩ := hx
  refine ⟨d, ?_, hxd⟩
  by_cases hs : s = "" <;> simp [symDefs, hs, List.mem_filter] at hd
  · exact hd.1

lemma symptomToExams_subset_allSymExams (c : Corpus) (s : String) :
    symptomToExams c s ⊆ allSymExams c := by
  intro x hx
  rw [symptomToExams, mem_unionOver] at hx
  rw [allSymExams, mem_unionOver]
  obtain ⟨d, hd, hxd⟩ := hx
  refine ⟨d, ?_, hxd⟩
  by_cases hs : s = "" <;> simp [symDefs, hs, List.mem_filter] at hd
  · exact hd.1

lemma symptomToTreats_subset_allSymTreats (c : Corpus) (s : String) :
    symptomToTreats c s ⊆ allSymTreats c := by
  intro x hx
  rw [symptomToTreats, mem_unionOver] at hx
  rw [allSymTreats, mem_unionOver]
  obtain ⟨d, hd, hxd⟩ := hx
  refine ⟨d, ?_, hxd⟩
  by_cases hs : s = "" <;> simp [symDefs, hs, List.mem_filter] at hd
  · exact hd.1

lemma treatComplications_subset_allCompl (c : Corpus) (t : String) :
    treatComplications c t ⊆ allCompl c := by
  intro x hx
  rw [treatComplications, mem_unionOver] at hx
  rw [allCompl, mem_unionOver]
  obtain ⟨d, hd, hxd⟩ := hx
  refine ⟨d, ?_, hxd⟩
  by_cases ht : t = "" <;> simp [treatDefs, ht, List.mem_filter] at hd
  · exact hd.1

lemma examAdj_subset (c : Corpus) (a : String) :
    examAdj c a ⊆ allPeers c ∪ definedExams c := by
  intro x hx
  rw [examAdj, Finset.mem_union] at hx
  rcases hx with hx | hx
  · rw [mem_unionOver] at hx
    obtain ⟨d, hd, hxd⟩ := hx
    refine Finset.mem_union_left _ ?_
    rw [allPeers, mem_unionOver]
    refine ⟨d, ?_, hxd⟩
    by_cases ha : a = "" <;> simp [examDefs, ha, List.mem_filter] at hd
    · exact hd.1
  · refine Finset.mem_union_right _ ?_
    simp only [List.mem_toFinset, List.mem_map, List.mem_filter, Bool.and_eq_true,
      bne_iff_ne, ne_eq, decide_eq_true_eq] at hx
    obtain ⟨d, ⟨hd, hne, _⟩, hid⟩ := hx
    rw [definedExams, List.mem_toFinset, List.mem_filter]
    refine ⟨List.mem_map.2 ⟨d, hd, hid⟩, ?_⟩
    simp [bne_iff_ne, hid ▸ hne]

/-- The loop state stays inside the finite universes. -/
def stBounded (c : Corpus) (st : St) : Prop :=
  st.ks ⊆ USym c ∧ st.ue ⊆ UExam c ∧ st.ut ⊆ UTreat c

lemma stBounded_st0 (c : Corpus) : stBounded c (st0 c) := by
  refine ⟨?_, ?_, ?_⟩
  · exact Finset.subset_union_left.trans Finset.subset_union_left
  · exact Finset.subset_union_left.trans Finset.subset_union_left
  · exact Finset.subset_union_left

lemma USym_closed_collapse (c : Corpus) : ∀ a ∈ USym c, symptomCollapse c a ⊆ USym c :=
  fun a _ => (symptomCollapse_subset_allCollapse c a).trans
    (Finset.subset_union_right.trans Finset.subset_union_left)

lemma UExam_closed_adj (c : Corpus) : ∀ a ∈ UExam c, examAdj c a ⊆ UExam c :=
  fun a _ => (examAdj_subset c a).trans Finset.subset_union_right

lemma stBounded_passC (c : Corpus) {st : St} (h : stBounded c st) :
    stBounded c (passC c st) := by
  obtain ⟨hks, hue, hut⟩ := h
  have hks1 : clos (symptomCollapse c) (allCollapse c) st.ks ⊆ USym c :=
    clos_least (USym_closed_collapse c) hks
  refine ⟨?_, ?_, ?_⟩
  · refine Finset.union_subset hks1 (Finset.biUnion_subset.2 ?_)
    intro t _
    exact (treatComplications_subset_allCompl c t).trans Finset.subset_union_right
  · refine clos_least (UExam_closed_adj c) (Finset.union_subset hue ?_)
    refine Finset.biUnion_subset.2 fun s _ => ?_
    exact (symptomToExams_subset_allSymExams c s).trans
      (Finset.subset_union_right.trans Finset.subset_union_left)
  · refine Finset.union_subset hut (Finset.biUnion_subset.2 fun s _ => ?_)
    exact (symptomToTreats_subset_allSymTreats c s).trans Finset.subset_union_right

lemma stBounded_passIter (c : Corpus) (n : Nat) : stBounded c (passIter c n) := by
  induction n with
  | zero => exact stBounded_st0 c
  | succ m ih => exact stBounded_passC c ih

/-- Size measure of a loop state (the tuple `main` compares across
iterations). -/
def stSize (st : St) : Nat := st.ks.card + st.ue.card + st.ut.card

lemma stEq_of_le_of_size_le {a b : St} (h : stLE a b) (hs : stSize b ≤ stSize a) :
    a = b := by
  obtain ⟨h1, h2, h3⟩ := h
  have c1 := Finset.card_le_card h1
  have c2 := Finset.card_le_card h2
  have c3 := Finset.card_le_card h3
  unfold stSize at hs
  have e1 := Finset.eq_of_subset_of_card_le h1 (by omega)
  have e2 := Finset.eq_of_subset_of_card_le h2 (by omega)
  have e3 := Finset.eq_of_subset_of_card_le h3 (by omega)
  ext x
  · rw [e1]
  · rw [e2]
  · rw [e3]

lemma stSize_lt_of_ne {a b : St} (h : stLE a b) (hne : a ≠ b) :
    stSize a < stSize b := by
  by_contra hle
  exact hne (stEq_of_le_of_size_le h (by omega))

lemma passIter_progress (c : Corpus) :
    ∀ n : Nat, passC c (passIter c n) = passIter c n ∨
      stSize (st0 c) + n ≤ stSize (passIter c n) := by
  intro n
  induction n with
  | zero => exact Or.inr (by simp [passIter])
  | succ m ih =>
      rcases ih with h | h
      · left
        rw [passIter_succ_out, h, h]
      · by_cases heq : passC c (passIter c m) = passIter c m
        · left
          rw [passIter_succ_out, heq, heq]
        · right
          have hlt : stSize (passIter c m) < stSize (passIter c (m + 1)) := by
            rw [passIter_succ_out]
            exact stSize_lt_of_ne (stLE_passC c _) (fun h2 => heq h2.symm)
          omega

lemma stSize_le_of_bounded (c : Corpus) {st : St} (h : stBounded c st) :
    stSize st ≤ (USym c).card + (UExam c).card + (UTreat c).card := by
  obtain ⟨h1, h2, h3⟩ := h
  have c1 := Finset.card_le_card h1
  have c2 := Finset.card_le_card h2
  have c3 := Finset.card_le_card h3
  unfold stSize
  omega

/-- The loop exits: `fixSt` is a fixed point of the loop body. -/
lemma passC_fixSt (c : Corpus) : passC c (fixSt c) = fixSt c := by
  rcases passIter_progress c (stFuel c) with h | h
  · exact h
  · exfalso
    have hb := stSize_le_of_bounded c (stBounded_passIter c (stFuel c))
    unfold stFuel at h hb
    unfold stSize at h hb
    omega

/-! ### Least-fixed-point characterization -/

/-- A triple of id sets closed under all reference-edge rules of the
closure engine, containing the diagnosis seeds. -/
structure Closed (c : Corpus) (A B C : Finset String) : Prop where
  seedS : diagSymRefs c ⊆ A
  seedE : diagExamRefs c ⊆ B
  seedT : diagTreatRefs c ⊆ C
  collapse : ∀ s ∈ A, symptomCollapse c s ⊆ A
  symExams : ∀ s ∈ A, symptomToExams c s ⊆ B
  symTreats : ∀ s ∈ A, symptomToTreats c s ⊆ C
  adj : ∀ e ∈ B, examAdj c e ⊆ B
  surgery : ∀ t ∈ C, treatIsSurgery c t = true → treatComplications c t ⊆ A

lemma passIter_le_closed {c : Corpus} {A B C : Finset String}
    (h : Closed c A B C) (n : Nat) : stLE (passIter c n) ⟨A, B, C⟩ := by
  induction n with
  | zero => exact ⟨h.seedS, h.seedE, h.seedT⟩
  | succ m ih =>
      obtain ⟨hks, hue, hut⟩ := ih
      have hks1 : clos (symptomCollapse c) (allCollapse c) (passIter c m).ks ⊆ A :=
        clos_least h.collapse hks
      have hut1 : (passIter c m).ut ∪
          (clos (symptomCollapse c) (allCollapse c) (passIter c m).ks).biUnion
            (symptomToTreats c) ⊆ C :=
        Finset.union_subset hut
          (Finset.biUnion_subset.2 fun s hs => h.symTreats s (hks1 hs))
      refine ⟨?_, ?_, hut1⟩
      · refine Finset.union_subset hks1 (Finset.biUnion_subset.2 fun t ht => ?_)
        rw [Finset.mem_filter] at ht
        exact h.surgery t (hut1 ht.1) ht.2
      · refine clos_least h.adj (Finset.union_subset hue ?_)
        exact Finset.biUnion_subset.2 fun s hs => h.symExams s (hks1 hs)

/-- Minimality: the fixed point is contained in every closed triple. -/
lemma fixSt_least {c : Corpus} {A B C : Finset String} (h : Closed c A B C) :
    stLE (fixSt c) ⟨A, B, C⟩ :=
  passIter_le_closed h (stFuel c)

lemma passC_ks (c : Corpus) (st : St) :
    (passC c st).ks = clos (symptomCollapse c) (allCollapse c) st.ks ∪
      ((st.ut ∪ (clos (symptomCollapse c) (allCollapse c) st.ks).biUnion
          (symptomToTreats c)).filter
        (fun t => treatIsSurgery c t = true)).biUnion (treatComplications c) := rfl

lemma passC_ue (c : Corpus) (st : St) :
    (passC c st).ue = clos (examAdj c) (allPeers c ∪ definedExams c)
      (st.ue ∪ (clos (symptomCollapse c) (allCollapse c) st.ks).biUnion
        (symptomToExams c)) := rfl

lemma passC_ut (c : Corpus) (st : St) :
    (passC c st).ut = st.ut ∪ (clos (symptomCollapse c) (allCollapse c) st.ks).biUnion
      (symptomToTreats c) := rfl

/-- The collapse closure inside a fixed-point pass adds nothing. -/
lemma fixSt_ks1 (c : Corpus) :
    clos (symptomCollapse c) (allCollapse c) (fixSt c).ks = (fixSt c).ks := by
  have h := congrArg St.ks (passC_fixSt c)
  rw [passC_ks] at h
  refine subset_antisymm ?_ (subset_clos _ _ _)
  conv_rhs => rw [← h]
  exact Finset.subset_union_left

/-- The used-treatments expansion inside a fixed-point pass adds nothing. -/
lemma fixSt_ut1 (c : Corpus) :
    (fixSt c).ut ∪ (fixSt c).ks.biUnion (symptomToTreats c) = (fixSt c).ut := by
  have h := congrArg St.ut (passC_fixSt c)
  rw [passC_ut, fixSt_ks1] at h
  exact h

/-- The used-exams expansion inside a fixed-point pass adds nothing. -/
lemma fixSt_ue1 (c : Corpus) :
    (fixSt c).ue ∪ (fixSt c).ks.biUnion (symptomToExams c) = (fixSt c).ue := by
  have h := congrArg St.ue (passC_fixSt c)
  rw [passC_ue, fixSt_ks1] at h
  refine subset_antisymm ?_ Finset.subset_union_left
  conv_rhs => rw [← h]
  exact subset_clos _ _ _

/-- The fixed point is closed under all of the engine's rules. -/
lemma fixSt_closed (c : Corpus) : Closed c (fixSt c).ks (fixSt c).ue (fixSt c).ut := by
  have hseed := stLE_st0_passIter c (stFuel c)
  refine ⟨hseed.1, hseed.2.1, hseed.2.2, ?_, ?_, ?_, ?_, ?_⟩
  · intro s hs
    have h := clos_closed (symptomCollapse_subset_allCollapse c) (fixSt c).ks s
    rw [fixSt_ks1] at h
    exact h hs
  · intro s hs
    have h : (fixSt c).ks.biUnion (symptomToExams c) ⊆ (fixSt c).ue :=
      Finset.union_eq_left.1 (fixSt_ue1 c)
    exact (Finset.subset_biUnion_of_mem _ hs).trans h
  · intro s hs
    have h : (fixSt c).ks.biUnion (symptomToTreats c) ⊆ (fixSt c).ut :=
      Finset.union_eq_left.1 (fixSt_ut1 c)
    exact (Finset.subset_biUnion_of_mem _ hs).trans h
  · intro e he
    have h := congrArg St.ue (passC_fixSt c)
    rw [passC_ue, fixSt_ks1, fixSt_ue1] at h
    have hcl := clos_closed (examAdj_subset c) (fixSt c).ue e
    rw [h] at hcl
    exact hcl he
  · intro t ht hsurg
    have h := congrArg St.ks (passC_fixSt c)
    rw [passC_ks, fixSt_ks1, fixSt_ut1] at h
    have hsub : ((fixSt c).ut.filter
        (fun t => treatIsSurgery c t = true)).biUnion (treatComplications c) ⊆
        (fixSt c).ks :=
      Finset.union_eq_left.1 h
    exact (Finset.subset_biUnion_of_mem _ (Finset.mem_filter.2 ⟨ht, hsurg⟩)).trans hsub

/-! ### The Pruner -/

/-- The three sorted deletion lists computed by `main`. -/
structure PruneResult where
  unusedSymptoms : List String
  unusedExams : List String
  unusedTreats : List String
deriving DecidableEq

/-- The deletion-list computation of `main`: run the fixed-point loop, then
diff the defined-id sets against the kept/used sets and sort
(`sorted(defined_symptoms - kept_symptoms)` and friends). -/
def pruneMain (c : Corpus) : PruneResult :=
  ⟨(definedSymptoms c \ (fixSt c).ks).sort (fun a b => a ≤ b),
   (definedExams c \ (fixSt c).ue).sort (fun a b => a ≤ b),
   (definedTreats c \ (fixSt c).ut).sort (fun a b => a ≤ b)⟩

/-- Applying the deletions (`delete_ids` under `--apply`): every definition
of every id in a deletion list is removed from the corpus; diagnoses are
untouched. -/
def applyDeletions (c : Corpus) (r : PruneResult) : Corpus :=
  ⟨c.diagnoses,
   c.symptoms.filter (fun d => !(decide (pyStrip d.id ∈ r.unusedSymptoms))),
   c.exams.filter (fun d => !(decide (pyStrip d.id ∈ r.unusedExams))),
   c.treats.filter (fun d => !(decide (pyStrip d.id ∈ r.unusedTreats)))⟩

/-! ### Membership characterizations of the extracted maps -/

lemma mem_unionOver_symDefs {c : Corpus} {s x : String} {g : SymDef → Finset String} :
    x ∈ unionOver (symDefs c s) g ↔
      s ≠ "" ∧ ∃ d ∈ c.symptoms, pyStrip d.id = s ∧ x ∈ g d := by
  by_cases hs : s = "" <;>
    simp [symDefs, hs, mem_unionOver, List.mem_filter, and_assoc]

lemma mem_unionOver_examDefs {c : Corpus} {e x : String} {g : ExamDef → Finset String} :
    x ∈ unionOver (examDefs c e) g ↔
      e ≠ "" ∧ ∃ d ∈ c.exams, pyStrip d.id = e ∧ x ∈ g d := by
  by_cases he : e = "" <;>
    simp [examDefs, he, mem_unionOver, List.mem_filter, and_assoc]

lemma mem_unionOver_treatDefs {c : Corpus} {t x : String} {g : TreatDef → Finset String} :
    x ∈ unionOver (treatDefs c t) g ↔
      t ≠ "" ∧ ∃ d ∈ c.treats, pyStrip d.id = t ∧ x ∈ g d := by
  by_cases ht : t = "" <;>
    simp [treatDefs, ht, mem_unionOver, List.mem_filter, and_assoc]

lemma mem_definedSymptoms {c : Corpus} {x : String} :
    x ∈ definedSymptoms c ↔ (∃ d ∈ c.symptoms, pyStrip d.id = x) ∧ x ≠ "" := by
  simp [definedSymptoms, List.mem_filter, List.mem_map, bne_iff_ne]

lemma mem_definedExams {c : Corpus} {x : String} :
    x ∈ definedExams c ↔ (∃ d ∈ c.exams, pyStrip d.id = x) ∧ x ≠ "" := by
  simp [definedExams, List.mem_filter, List.mem_map, bne_iff_ne]

lemma mem_definedTreats {c : Corpus} {x : String} :
    x ∈ definedTreats c ↔ (∃ d ∈ c.treats, pyStrip d.id = x) ∧ x ≠ "" := by
  simp [definedTreats, List.mem_filter, List.mem_map, bne_iff_ne]

lemma mem_examAdj {c : Corpus} {a x : String} :
    x ∈ examAdj c a ↔
      (a ≠ "" ∧ ∃ d ∈ c.exams, pyStrip d.id = a ∧ x ∈ texts d.labPeers) ∨
      (∃ d ∈ c.exams, pyStrip d.id = x ∧ x ≠ "" ∧ a ∈ texts d.labPeers) := by
  rw [examAdj, Finset.mem_union, mem_unionOver_examDefs]
  constructor
  · rintro (h | h)
    · exact Or.inl h
    · simp only [List.mem_toFinset, List.mem_map, List.mem_filter, Bool.and_eq_true,
        bne_iff_ne, ne_eq, decide_eq_true_eq] at h
      obtain ⟨d, ⟨hd, hne, hmem⟩, hid⟩ := h
      exact Or.inr ⟨d, hd, hid, hid ▸ hne, hmem⟩
  · rintro (h | h)
    · exact Or.inl h
    · obtain ⟨d, hd, hid, hne, hmem⟩ := h
      refine Or.inr ?_
      simp only [List.mem_toFinset, List.mem_map, List.mem_filter, Bool.and_eq_true,
        bne_iff_ne, ne_eq, decide_eq_true_eq]
      exact ⟨d, ⟨hd, hid ▸ hne, hmem⟩, hid⟩

lemma treatIsSurgery_iff {c : Corpus} {t : String} :
    treatIsSurgery c t = true ↔
      t ≠ "" ∧ ∃ d ∈ c.treats, pyStrip d.id = t ∧
        ∃ s ∈ d.treatmentTypes, pyStrip s ≠ "" ∧ pyUpper (pyStrip s) = "SURGERY" := by
  by_cases ht : t = "" <;>
    simp [treatIsSurgery, treatDefs, ht, List.any_eq_true, List.mem_filter,
      List.mem_map, bne_iff_ne, and_assoc]

/-! ### Reachability in the undirected lab-peer graph -/

/-- Reachability along the symmetrized `exam_adj` edges. -/
inductive LabReach (c : Corpus) : String → String → Prop
  | refl (a : String) : LabReach c a a
  | step {a b e : String} : LabReach c a b → e ∈ examAdj c b → LabReach c a e

/-! ### Scenario corpora for the testable properties -/

/-- Collapse-chain scenario: `D1` references `S1`; `S1` collapse-refs `S2`;
`S2` collapse-refs `S3`. -/
def corpC5 : Corpus :=
  ⟨[⟨"D1", ["S1"], [], []⟩],
   [⟨"S1", [], [], ["S2"]⟩, ⟨"S2", [], [], ["S3"]⟩, ⟨"S3", [], [], []⟩],
   [], []⟩

/-- Non-surgery complication scenario: `D1` references treatment `T1` of
type `Medication` with complication symptom `S9`; nothing else references
`S9`. -/
def corpC3n : Corpus :=
  ⟨[⟨"D1", [], [], ["T1"]⟩],
   [⟨"S9", [], [], []⟩],
   [],
   [⟨"T1", ["Medication"], ["S9"]⟩]⟩

/-- Surgery complication scenario: like `corpC3n` but `T1` has type
`Surgery`. -/
def corpC3s : Corpus :=
  ⟨[⟨"D1", [], [], ["T1"]⟩],
   [⟨"S9", [], [], []⟩],
   [],
   [⟨"T1", ["Surgery"], ["S9"]⟩]⟩

/-- Lab-equivalence scenario: kept symptom `S1` references `E1`; `E1`
declares a lab-peer link to `E2`; `E2` declares no back-link. -/
def corpC4 : Corpus :=
  ⟨[⟨"D1", ["S1"], [], []⟩],
   [⟨"S1", ["E1"], [], []⟩],
   [⟨"E1", ["E2"]⟩, ⟨"E2", []⟩],
   []⟩

/-- Duplicate-definition scenario: `S1` is defined twice, once referencing
`E1` and once referencing `E2`. -/
def corpC7 : Corpus :=
  ⟨[⟨"D1", ["S1"], [], []⟩],
   [⟨"S1", ["E1"], [], []⟩, ⟨"S1", ["E2"], [], []⟩],
   [⟨"E1", []⟩, ⟨"E2", []⟩],
   []⟩

/-- `corpC7` with the two duplicate definitions of `S1` swapped. -/
def corpC7p : Corpus :=
  ⟨[⟨"D1", ["S1"], [], []⟩],
   [⟨"S1", ["E2"], [], []⟩, ⟨"S1", ["E1"], [], []⟩],
   [⟨"E1", []⟩, ⟨"E2", []⟩],
   []⟩

/-- Fixed-point witness corpus for the termination claim. -/
def corpC8 : Corpus :=
  ⟨[⟨"D1", ["S1"], ["E1"], ["T1"]⟩],
   [⟨"S1", ["E2"], [], ["S2"]⟩, ⟨"S2", [], [], []⟩],
   [⟨"E1", []⟩, ⟨"E2", []⟩],
   [⟨"T1", ["Surgery"], ["S3"]⟩]⟩

/-- Dangling lab-peer scenario: `D1` references `E2`; both defined exams
`E1` and `E2` declare the undefined id `P` as a lab peer. -/
def corpC9 : Corpus :=
  ⟨[⟨"D1", [], ["E2"], []⟩],
   [],
   [⟨"E1", ["P"]⟩, ⟨"E2", ["P"]⟩],
   []⟩

/-- `corpC9` with the references to the dangling id `P` removed. -/
def corpC9r : Corpus :=
  ⟨[⟨"D1", [], ["E2"], []⟩],
   [],
   [⟨"E1", []⟩, ⟨"E2", []⟩],
   []⟩

/-- Diagnosis-free corpus: defined entities of every kind but no diagnosis
definition at all. -/
def corpC10 : Corpus :=
  ⟨[],
   [⟨"S1", ["E1"], ["T1"], []⟩],
   [⟨"E1", []⟩],
   [⟨"T1", ["Surgery"], ["S1"]⟩]⟩

/-! ### Claims -/

/-- C1: for every corpus, after the closure fixed point the Pruner's
deletion lists are exactly the per-kind set differences `defined − kept`,
where a kind's defined set is the set of ids having at least one
definition of that kind in the index. -/
theorem c1_pruner_diff (c : Corpus) :
    (pruneMain c).unusedSymptoms.toFinset = definedSymptoms c \ (fixSt c).ks ∧
    (pruneMain c).unusedExams.toFinset = definedExams c \ (fixSt c).ue ∧
    (pruneMain c).unusedTreats.toFinset = definedTreats c \ (fixSt c).ut ∧
    (∀ x, x ∈ definedSymptoms c ↔ (∃ d ∈ c.symptoms, pyStrip d.id = x) ∧ x ≠ "") ∧
    (∀ x, x ∈ definedExams c ↔ (∃ d ∈ c.exams, pyStrip d.id = x) ∧ x ≠ "") ∧
    (∀ x, x ∈ definedTreats c ↔ (∃ d ∈ c.treats, pyStrip d.id = x) ∧ x ≠ "") :=
  ⟨Finset.sort_toFinset _ _, Finset.sort_toFinset _ _, Finset.sort_toFinset _ _,
    fun _ => mem_definedSymptoms, fun _ => mem_definedExams, fun _ => mem_definedTreats⟩

/-- C3: surgery-complication expansion is conditional.  At the fixed point,
the complication symptom refs of every used treatment with a definition
declaring a treatment type equal to `SURGERY` case-insensitively are kept;
in the non-surgery scenario the used treatment `T1` of `corpC3n` has the
complication symptom `S9`, yet `S9` stays out of the kept set. -/
theorem c3_surgery_conditional :
    (∀ (c : Corpus) (t : String), t ∈ (fixSt c).ut → treatIsSurgery c t = true →
      treatComplications c t ⊆ (fixSt c).ks) ∧
    ("T1" ∈ (fixSt corpC3n).ut ∧ treatIsSurgery corpC3n "T1" = false ∧
      "S9" ∈ treatComplications corpC3n "T1" ∧ "S9" ∈ definedSymptoms corpC3n ∧
      "S9" ∉ (fixSt corpC3n).ks) := by
  constructor
  · exact fun c t ht hs => (fixSt_closed c).surgery t ht hs
  · exact ⟨by decide, by decide, by decide, by decide, by decide⟩

/-- Witness for C3: in the surgery variant `corpC3s` the hypotheses hold
and the theorem forces the complication symptom into the kept set. -/
theorem c3_surgery_conditional_witness :
    ("T1" ∈ (fixSt corpC3s).ut ∧ treatIsSurgery corpC3s "T1" = true) ∧
      "S9" ∈ (fixSt corpC3s).ks :=
  ⟨⟨by decide, by decide⟩,
    c3_surgery_conditional.1 corpC3s "T1" (by decide) (by decide) (by decide)⟩

/-- C4: lab-equivalence is symmetric regardless of which side declared the
link — if a definition of exam `a` lists `b` as a lab peer then at the
fixed point membership of either of `a`, `b` in `used_exams` forces the
other — and `used_exams` is closed under reachability in the undirected
lab-peer graph. -/
theorem c4_lab_symmetry :
    (∀ (c : Corpus) (a b : String),
      (∃ d ∈ c.exams, pyStrip d.id = a ∧ a ≠ "" ∧ b ∈ texts d.labPeers) →
      (a ∈ (fixSt c).ue → b ∈ (fixSt c).ue) ∧
      (b ∈ (fixSt c).ue → a ∈ (fixSt c).ue)) ∧
    (∀ (c : Corpus) (a b : String), a ∈ (fixSt c).ue → LabReach c a b →
      b ∈ (fixSt c).ue) := by
  constructor
  · rintro c a b ⟨d, hd, hid, hne, hpeer⟩
    constructor
    · intro ha
      exact (fixSt_closed c).adj a ha
        (mem_examAdj.2 (Or.inl ⟨hne, d, hd, hid, hpeer⟩))
    · intro hb
      exact (fixSt_closed c).adj b hb
        (mem_examAdj.2 (Or.inr ⟨d, hd, hid, hne, hpeer⟩))
  · intro c a b ha hr
    induction hr with
    | refl => exact ha
    | step hab he ih => exact (fixSt_closed c).adj _ ih he

/-- Witness for C4: in `corpC4`, `E1` declares `E2` as lab peer, `E2`
declares no back-link, `E1` is used, and the theorem forces `E2` in. -/
theorem c4_lab_symmetry_witness :
    ((∃ d ∈ corpC4.exams, pyStrip d.id = "E1" ∧ "E1" ≠ "" ∧
        "E2" ∈ texts d.labPeers) ∧
      "E1" ∈ (fixSt corpC4).ue) ∧ "E2" ∈ (fixSt corpC4).ue :=
  ⟨⟨by decide, by decide⟩,
    (c4_lab_symmetry.1 corpC4 "E1" "E2" (by decide)).1 (by decide)⟩

/-- C5: collapse closure is directed and transitive — at the fixed point
the kept-symptom set is closed under every collapse target declared by any
definition of a kept symptom, and in the chain scenario `corpC5` all of
`S1`, `S2`, `S3` are kept although only `S1` is referenced by a
diagnosis. -/
theorem c5_collapse_closure :
    (∀ (c : Corpus) (s x : String), s ∈ (fixSt c).ks → x ∈ symptomCollapse c s →
      x ∈ (fixSt c).ks) ∧
    ("S1" ∈ (fixSt corpC5).ks ∧ "S2" ∈ (fixSt corpC5).ks ∧
      "S3" ∈ (fixSt corpC5).ks) := by
  constructor
  · exact fun c s x hs hx => (fixSt_closed c).collapse s hs hx
  · exact ⟨by decide, by decide, by decide⟩

/-- Witness for C5: the closure rule applied in `corpC5` at `S1`. -/
theorem c5_collapse_closure_witness :
    ("S1" ∈ (fixSt corpC5).ks ∧ "S2" ∈ symptomCollapse corpC5 "S1") ∧
      "S2" ∈ (fixSt corpC5).ks :=
  ⟨⟨by decide, by decide⟩,
    c5_collapse_closure.1 corpC5 "S1" "S2" (by decide) (by decide)⟩

/-- C6: monotonicity of the fixed-point iteration — after each further
iteration of the outer loop every one of the three sets is a superset of
its previous value. -/
theorem c6_monotone (c : Corpus) (n : Nat) :
    (passIter c n).ks ⊆ (passIter c (n + 1)).ks ∧
    (passIter c n).ue ⊆ (passIter c (n + 1)).ue ∧
    (passIter c n).ut ⊆ (passIter c (n + 1)).ut :=
  stLE_passIter_succ c n

/-- C8: the outer loop terminates at a fixed point of the loop body; each
pass only grows the three sets, and a pass that changes none of the three
sizes (the loop's exit test) has in fact changed nothing, so the
computation is a total function of the reference maps returning a valid
triple. -/
theorem c8_termination (c : Corpus) :
    passC c (fixSt c) = fixSt c ∧
    (∀ st : St, st.ks ⊆ (passC c st).ks ∧ st.ue ⊆ (passC c st).ue ∧
      st.ut ⊆ (passC c st).ut) ∧
    (∀ st : St, (passC c st).ks.card = st.ks.card →
      (passC c st).ue.card = st.ue.card → (passC c st).ut.card = st.ut.card →
      passC c st = st) := by
  refine ⟨passC_fixSt c, fun st => stLE_passC c st, fun st h1 h2 h3 => ?_⟩
  have h := stEq_of_le_of_size_le (stLE_passC c st) (by unfold stSize; omega)
  exact h.symm

/-- Witness for C8: the exit test applied in `corpC8` at its fixed point. -/
theorem c8_termination_witness :
    ((passC corpC8 (fixSt corpC8)).ks.card = (fixSt corpC8).ks.card ∧
      (passC corpC8 (fixSt corpC8)).ue.card = (fixSt corpC8).ue.card ∧
      (passC corpC8 (fixSt corpC8)).ut.card = (fixSt corpC8).ut.card) ∧
    passC corpC8 (fixSt corpC8) = fixSt corpC8 :=
  ⟨⟨by decide, by decide, by decide⟩,
    (c8_termination corpC8).2.2 (fixSt corpC8) (by decide) (by decide) (by decide)⟩

lemma passC_bot (c : Corpus) : passC c ⟨∅, ∅, ∅⟩ = ⟨∅, ∅, ∅⟩ := by
  have h : clos (symptomCollapse c) (allCollapse c) (∅ : Finset String) = ∅ :=
    clos_empty _ _
  ext x <;> simp [passC, h, clos_empty]

/-- C10: with no diagnosis definitions (or none declaring any reference),
the seeds are empty, the fixed point is the empty triple, and every
defined id of every kind is selected for deletion. -/
theorem c10_no_diagnoses (c : Corpus)
    (h : c.diagnoses = [] ∨
      (diagSymRefs c = ∅ ∧ diagExamRefs c = ∅ ∧ diagTreatRefs c = ∅)) :
    fixSt c = ⟨∅, ∅, ∅⟩ ∧
    (pruneMain c).unusedSymptoms.toFinset = definedSymptoms c ∧
    (pruneMain c).unusedExams.toFinset = definedExams c ∧
    (pruneMain c).unusedTreats.toFinset = definedTreats c := by
  have hseed : st0 c = ⟨∅, ∅, ∅⟩ := by
    rcases h with h | ⟨h1, h2, h3⟩
    · have hd : diagDefs c = [] := by rw [diagDefs, h]; rfl
      rw [st0]
      rw [diagSymRefs, diagExamRefs, diagTreatRefs, hd]
      rfl
    · rw [st0, h1, h2, h3]
  have hfix : fixSt c = ⟨∅, ∅, ∅⟩ := by
    have : ∀ n, passIter c n = ⟨∅, ∅, ∅⟩ := by
      intro n
      induction n with
      | zero => exact hseed
      | succ m ih => rw [passIter_succ_out, ih, passC_bot]
    exact this _
  refine ⟨hfix, ?_, ?_, ?_⟩ <;>
    rw [pruneMain, hfix] <;>
    simp [Finset.sort_toFinset]

/-- Witness for C10: `corpC10` has no diagnosis and all of its defined
ids land in the deletion lists. -/
theorem c10_no_diagnoses_witness :
    corpC10.diagnoses = [] ∧
      (pruneMain corpC10).unusedSymptoms.toFinset = definedSymptoms corpC10 :=
  ⟨rfl, (c10_no_diagnoses corpC10 (Or.inl rfl)).2.1⟩

lemma symDefs_eq_nil_of_not_defined {c : Corpus} {x : String}
    (h : x ∉ definedSymptoms c) : symDefs c x = [] := by
  by_cases hx : x = ""
  · simp [symDefs, hx]
  · rw [symDefs, if_neg hx]
    rw [List.filter_eq_nil_iff]
    intro d hd hbeq
    rw [beq_iff_eq] at hbeq
    exact h (mem_definedSymptoms.2 ⟨⟨d, hd, hbeq⟩, hx⟩)

lemma treatDefs_eq_nil_of_not_defined {c : Corpus} {x : String}
    (h : x ∉ definedTreats c) : treatDefs c x = [] := by
  by_cases hx : x = ""
  · simp [treatDefs, hx]
  · rw [treatDefs, if_neg hx]
    rw [List.filter_eq_nil_iff]
    intro d hd hbeq
    rw [beq_iff_eq] at hbeq
    exact h (mem_definedTreats.2 ⟨⟨d, hd, hbeq⟩, hx⟩)

/-- C9 counterexample: the dangling exam id `P` of `corpC9` is referenced
but never defined, yet its presence as a reference target changes the
membership of the defined exam `E1` — `corpC9r` differs from `corpC9` only
by dropping the references to `P`, and there `E1` is unused and lands in
the deletion list. -/
theorem c9_dangling_counterexample :
    "P" ∉ definedExams corpC9 ∧ "P" ∈ allPeers corpC9 ∧
    "E1" ∈ (fixSt corpC9).ue ∧ "E1" ∉ (fixSt corpC9r).ue ∧
    "E1" ∉ (pruneMain corpC9).unusedExams ∧
    "E1" ∈ (pruneMain corpC9r).unusedExams := by
  refine ⟨by decide, by decide, by decide, by decide, ?_, ?_⟩
  · rw [pruneMain, Finset.mem_sort]
    decide
  · rw [pruneMain, Finset.mem_sort]
    decide

/-- C9 (amended): a dangling symptom or treatment id contributes no edges
(empty reference maps, surgery flag off), and no id outside the defined
sets ever appears in a deletion list; a dangling examination id, however,
can still act as a connecting node of the undirected lab-peer graph (see
the counterexample). -/
theorem c9_dangling_amended (c : Corpus) (x : String) :
    (x ∉ definedSymptoms c → symptomCollapse c x = ∅ ∧ symptomToExams c x = ∅ ∧
      symptomToTreats c x = ∅) ∧
    (x ∉ definedTreats c → treatIsSurgery c x = false ∧
      treatComplications c x = ∅) ∧
    (pruneMain c).unusedSymptoms.toFinset ⊆ definedSymptoms c ∧
    (pruneMain c).unusedExams.toFinset ⊆ definedExams c ∧
    (pruneMain c).unusedTreats.toFinset ⊆ definedTreats c := by
  refine ⟨?_, ?_, ?_, ?_, ?_⟩
  · intro h
    rw [symptomCollapse, symptomToExams, symptomToTreats,
      symDefs_eq_nil_of_not_defined h]
    exact ⟨rfl, rfl, rfl⟩
  · intro h
    rw [treatIsSurgery, treatComplications, treatDefs_eq_nil_of_not_defined h]
    exact ⟨rfl, rfl⟩
  · rw [pruneMain]
    rw [Finset.sort_toFinset]
    exact Finset.sdiff_subset
  · rw [pruneMain]
    rw [Finset.sort_toFinset]
    exact Finset.sdiff_subset
  · rw [pruneMain]
    rw [Finset.sort_toFinset]
    exact Finset.sdiff_subset

/-- Witness for C9 (amended): the dangling id `P` of `corpC9` has empty
symptom and treatment maps. -/
theorem c9_dangling_amended_witness :
    ("P" ∉ definedSymptoms corpC9 ∧ "P" ∉ definedTreats corpC9) ∧
      symptomCollapse corpC9 "P" = ∅ ∧ treatIsSurgery corpC9 "P" = false :=
  ⟨⟨by decide, by decide⟩,
    ((c9_dangling_amended corpC9 "P").1 (by decide)).1,
    ((c9_dangling_amended corpC9 "P").2.1 (by decide)).1⟩

/-! ### Order independence of the extraction and closure -/

lemma bool_eq_of_iff {a b : Bool} (h : a = true ↔ b = true) : a = b := by
  cases a <;> cases b <;> simp_all

lemma unionOver_perm {α : Type} {l l' : List α} (h : l.Perm l')
    (g : α → Finset String) : unionOver l g = unionOver l' g := by
  ext x
  simp [mem_unionOver, h.mem_iff]

lemma symDefs_perm {c c' : Corpus} (hs : c.symptoms.Perm c'.symptoms) (s : String) :
    (symDefs c s).Perm (symDefs c' s) := by
  by_cases h0 : s = ""
  · rw [symDefs, symDefs, if_pos h0, if_pos h0]
  · rw [symDefs, symDefs, if_neg h0, if_neg h0]
    exact hs.filter _

lemma treatDefs_perm {c c' : Corpus} (ht : c.treats.Perm c'.treats) (t : String) :
    (treatDefs c t).Perm (treatDefs c' t) := by
  by_cases h0 : t = ""
  · rw [treatDefs, treatDefs, if_pos h0, if_pos h0]
  · rw [treatDefs, treatDefs, if_neg h0, if_neg h0]
    exact ht.filter _

lemma passIter_congr {c c' : Corpus} (h0 : st0 c = st0 c')
    (hp : passC c = passC c') : ∀ n, passIter c n = passIter c' n := by
  intro n
  induction n with
  | zero => exact h0
  | succ m ih => rw [passIter_succ_out, passIter_succ_out, ih, hp]

/-- Permuting the definition lists of a corpus changes neither the fixed
point nor the defined-id sets. -/
lemma fixSt_perm {c c' : Corpus} (hd : c.diagnoses.Perm c'.diagnoses)
    (hs : c.symptoms.Perm c'.symptoms) (he : c.exams.Perm c'.exams)
    (ht : c.treats.Perm c'.treats) :
    fixSt c = fixSt c' ∧ definedSymptoms c = definedSymptoms c' ∧
    definedExams c = definedExams c' ∧ definedTreats c = definedTreats c' := by
  have hdd : (diagDefs c).Perm (diagDefs c') := hd.filter _
  have hseed1 : diagSymRefs c = diagSymRefs c' := unionOver_perm hdd _
  have hseed2 : diagExamRefs c = diagExamRefs c' := unionOver_perm hdd _
  have hseed3 : diagTreatRefs c = diagTreatRefs c' := unionOver_perm hdd _
  have hcol : symptomCollapse c = symptomCollapse c' :=
    funext fun x => unionOver_perm (symDefs_perm hs x) _
  have hsex : symptomToExams c = symptomToExams c' :=
    funext fun x => unionOver_perm (symDefs_perm hs x) _
  have hstr : symptomToTreats c = symptomToTreats c' :=
    funext fun x => unionOver_perm (symDefs_perm hs x) _
  have hdefS : definedSymptoms c = definedSymptoms c' := by
    ext x
    simp [mem_definedSymptoms, hs.mem_iff]
  have hdefE : definedExams c = definedExams c' := by
    ext x
    simp [mem_definedExams, he.mem_iff]
  have hdefT : definedTreats c = definedTreats c' := by
    ext x
    simp [mem_definedTreats, ht.mem_iff]
  have hadj : examAdj c = examAdj c' := by
    funext a
    ext x
    simp [mem_examAdj, he.mem_iff]
  have hsurg : treatIsSurgery c = treatIsSurgery c' := by
    funext t
    refine bool_eq_of_iff ?_
    rw [treatIsSurgery_iff, treatIsSurgery_iff]
    simp [ht.mem_iff]
  have htc : treatComplications c = treatComplications c' :=
    funext fun x => unionOver_perm (treatDefs_perm ht x) _
  have hac : allCollapse c = allCollapse c' := unionOver_perm hs _
  have hase : allSymExams c = allSymExams c' := unionOver_perm hs _
  have hast : allSymTreats c = allSymTreats c' := unionOver_perm hs _
  have hap : allPeers c = allPeers c' := unionOver_perm he _
  have haco : allCompl c = allCompl c' := unionOver_perm ht _
  have h0 : st0 c = st0 c' := by
    rw [st0, st0, hseed1, hseed2, hseed3]
  have hp : passC c = passC c' := by
    funext st
    rw [passC, passC, hcol, hac, hsex, hstr, hadj, hap, hdefE, hsurg, htc]
  have hfuel : stFuel c = stFuel c' := by
    rw [stFuel, stFuel, h0, USym, USym, UExam, UExam, UTreat, UTreat,
      hseed1, hseed2, hseed3, hac, haco, hase, hap, hdefE, hast]
  refine ⟨?_, hdefS, hdefE, hdefT⟩
  rw [fixSt, fixSt, hfuel]
  exact passIter_congr h0 hp _

/-- C7: reference sets are unioned across duplicate definitions — each
definition of a symptom id contributes all of its references to the id's
maps — the whole computation is invariant under reordering the definition
lists, and in the duplicate-definition scenario `corpC7` both `E1` and
`E2` are reachable from the twice-defined `S1`. -/
theorem c7_union_duplicates :
    (∀ (c : Corpus) (d : SymDef), d ∈ c.symptoms → pyStrip d.id ≠ "" →
      texts d.examRefs ⊆ symptomToExams c (pyStrip d.id) ∧
      texts d.treatRefs ⊆ symptomToTreats c (pyStrip d.id) ∧
      texts d.collapseRefs ⊆ symptomCollapse c (pyStrip d.id)) ∧
    (∀ c c' : Corpus, c.diagnoses.Perm c'.diagnoses → c.symptoms.Perm c'.symptoms →
      c.exams.Perm c'.exams → c.treats.Perm c'.treats →
      fixSt c = fixSt c' ∧ pruneMain c = pruneMain c') ∧
    ("E1" ∈ (fixSt corpC7).ue ∧ "E2" ∈ (fixSt corpC7).ue) := by
  refine ⟨?_, ?_, by decide, by decide⟩
  · intro c d hd hne
    refine ⟨?_, ?_, ?_⟩ <;>
      exact fun x hx => mem_unionOver_symDefs.2 ⟨hne, d, hd, rfl, hx⟩
  · intro c c' hd hs he ht
    obtain ⟨hfix, hdefS, hdefE, hdefT⟩ := fixSt_perm hd hs he ht
    refine ⟨hfix, ?_⟩
    rw [pruneMain, pruneMain, hfix, hdefS, hdefE, hdefT]

/-- Witness for C7: the per-definition inclusion applied to the first
definition of `S1` in `corpC7`, and order independence applied to the
swapped variant `corpC7p`. -/
theorem c7_union_duplicates_witness :
    ((⟨"S1", ["E1"], [], []⟩ : SymDef) ∈ corpC7.symptoms ∧
      pyStrip (String.mk ['S', '1']) ≠ "" ∧
      corpC7.diagnoses.Perm corpC7p.diagnoses ∧
      corpC7.symptoms.Perm corpC7p.symptoms ∧
      corpC7.exams.Perm corpC7p.exams ∧ corpC7.treats.Perm corpC7p.treats) ∧
    texts ["E1"] ⊆ symptomToExams corpC7 (pyStrip (String.mk ['S', '1'])) ∧
    fixSt corpC7 = fixSt corpC7p :=
  ⟨⟨by decide, by decide, by decide, by decide, by decide, by decide⟩,
    (c7_union_duplicates.1 corpC7 ⟨"S1", ["E1"], [], []⟩ (by decide) (by decide)).1,
    (c7_union_duplicates.2.1 corpC7 corpC7p (by decide) (by decide) (by decide)
      (by decide)).1⟩

/-! ### Idempotence: re-running after applying deletions -/

/-- The corpus after one compute-and-apply cycle. -/
def pruned (c : Corpus) : Corpus := applyDeletions c (pruneMain c)

lemma mem_unusedSymptoms {c : Corpus} {x : String} :
    x ∈ (pruneMain c).unusedSymptoms ↔
      x ∈ definedSymptoms c ∧ x ∉ (fixSt c).ks := by
  rw [pruneMain, Finset.mem_sort, Finset.mem_sdiff]

lemma mem_unusedExams {c : Corpus} {x : String} :
    x ∈ (pruneMain c).unusedExams ↔
      x ∈ definedExams c ∧ x ∉ (fixSt c).ue := by
  rw [pruneMain, Finset.mem_sort, Finset.mem_sdiff]

lemma mem_unusedTreats {c : Corpus} {x : String} :
    x ∈ (pruneMain c).unusedTreats ↔
      x ∈ definedTreats c ∧ x ∉ (fixSt c).ut := by
  rw [pruneMain, Finset.mem_sort, Finset.mem_sdiff]

lemma mem_pruned_symptoms {c : Corpus} {d : SymDef} :
    d ∈ (pruned c).symptoms ↔ d ∈ c.symptoms ∧
      (pyStrip d.id ∈ definedSymptoms c → pyStrip d.id ∈ (fixSt c).ks) := by
  show d ∈ c.symptoms.filter _ ↔ _
  rw [List.mem_filter]
  simp only [mem_unusedSymptoms, Bool.not_eq_eq_eq_not, Bool.not_true,
    decide_eq_false_iff_not, not_and, not_not]

lemma mem_pruned_exams {c : Corpus} {d : ExamDef} :
    d ∈ (pruned c).exams ↔ d ∈ c.exams ∧
      (pyStrip d.id ∈ definedExams c → pyStrip d.id ∈ (fixSt c).ue) := by
  show d ∈ c.exams.filter _ ↔ _
  rw [List.mem_filter]
  simp only [mem_unusedExams, Bool.not_eq_eq_eq_not, Bool.not_true,
    decide_eq_false_iff_not, not_and, not_not]

lemma mem_pruned_treats {c : Corpus} {d : TreatDef} :
    d ∈ (pruned c).treats ↔ d ∈ c.treats ∧
      (pyStrip d.id ∈ definedTreats c → pyStrip d.id ∈ (fixSt c).ut) := by
  show d ∈ c.treats.filter _ ↔ _
  rw [List.mem_filter]
  simp only [mem_unusedTreats, Bool.not_eq_eq_eq_not, Bool.not_true,
    decide_eq_false_iff_not, not_and, not_not]

lemma symptomCollapse_pruned_le (c : Corpus) (x : String) :
    symptomCollapse (pruned c) x ⊆ symptomCollapse c x := by
  intro y hy
  rw [symptomCollapse, mem_unionOver_symDefs] at hy ⊢
  obtain ⟨hne, d, hd, hid, hmem⟩ := hy
  exact ⟨hne, d, (mem_pruned_symptoms.1 hd).1, hid, hmem⟩

lemma symptomToExams_pruned_le (c : Corpus) (x : String) :
    symptomToExams (pruned c) x ⊆ symptomToExams c x := by
  intro y hy
  rw [symptomToExams, mem_unionOver_symDefs] at hy ⊢
  obtain ⟨hne, d, hd, hid, hmem⟩ := hy
  exact ⟨hne, d, (mem_pruned_symptoms.1 hd).1, hid, hmem⟩

lemma symptomToTreats_pruned_le (c : Corpus) (x : String) :
    symptomToTreats (pruned c) x ⊆ symptomToTreats c x := by
  intro y hy
  rw [symptomToTreats, mem_unionOver_symDefs] at hy ⊢
  obtain ⟨hne, d, hd, hid, hmem⟩ := hy
  exact ⟨hne, d, (mem_pruned_symptoms.1 hd).1, hid, hmem⟩

lemma examAdj_pruned_le (c : Corpus) (a : String) :
    examAdj (pruned c) a ⊆ examAdj c a := by
  intro y hy
  rw [mem_examAdj] at hy ⊢
  rcases hy with ⟨hne, d, hd, hid, hp⟩ | ⟨d, hd, hid, hne, hp⟩
  · exact Or.inl ⟨hne, d, (mem_pruned_exams.1 hd).1, hid, hp⟩
  · exact Or.inr ⟨d, (mem_pruned_exams.1 hd).1, hid, hne, hp⟩

lemma treatComplications_pruned_le (c : Corpus) (t : String) :
    treatComplications (pruned c) t ⊆ treatComplications c t := by
  intro y hy
  rw [treatComplications, mem_unionOver_treatDefs] at hy ⊢
  obtain ⟨hne, d, hd, hid, hmem⟩ := hy
  exact ⟨hne, d, (mem_pruned_treats.1 hd).1, hid, hmem⟩

lemma treatIsSurgery_pruned_le {c : Corpus} {t : String}
    (h : treatIsSurgery (pruned c) t = true) : treatIsSurgery c t = true := by
  rw [treatIsSurgery_iff] at h ⊢
  obtain ⟨hne, d, hd, hid, hdecl⟩ := h
  exact ⟨hne, d, (mem_pruned_treats.1 hd).1, hid, hdecl⟩

/-- Every definition of a kept (hence not deleted) symptom id survives. -/
lemma symDefs_pruned {c : Corpus} {x : String} (hx : x ∈ (fixSt c).ks) :
    symDefs (pruned c) x = symDefs c x := by
  by_cases h0 : x = ""
  · rw [symDefs, symDefs, if_pos h0, if_pos h0]
  · rw [symDefs, symDefs, if_neg h0, if_neg h0]
    show (c.symptoms.filter _).filter _ = _
    rw [List.filter_filter]
    refine List.filter_congr fun d hd => ?_
    by_cases hbeq : pyStrip d.id = x
    · have hxu : x ∉ (pruneMain c).unusedSymptoms := by
        rw [mem_unusedSymptoms]
        exact fun hc => hc.2 hx
      simp [hbeq, hxu]
    · simp [hbeq]

lemma symptomCollapse_pruned_eq {c : Corpus} {x : String} (hx : x ∈ (fixSt c).ks) :
    symptomCollapse (pruned c) x = symptomCollapse c x := by
  rw [symptomCollapse, symptomCollapse, symDefs_pruned hx]

lemma symptomToExams_pruned_eq {c : Corpus} {x : String} (hx : x ∈ (fixSt c).ks) :
    symptomToExams (pruned c) x = symptomToExams c x := by
  rw [symptomToExams, symptomToExams, symDefs_pruned hx]

lemma symptomToTreats_pruned_eq {c : Corpus} {x : String} (hx : x ∈ (fixSt c).ks) :
    symptomToTreats (pruned c) x = symptomToTreats c x := by
  rw [symptomToTreats, symptomToTreats, symDefs_pruned hx]

/-- Every definition of a used (hence not deleted) treatment id survives. -/
lemma treatDefs_pruned {c : Corpus} {t : String} (ht : t ∈ (fixSt c).ut) :
    treatDefs (pruned c) t = treatDefs c t := by
  by_cases h0 : t = ""
  · rw [treatDefs, treatDefs, if_pos h0, if_pos h0]
  · rw [treatDefs, treatDefs, if_neg h0, if_neg h0]
    show (c.treats.filter _).filter _ = _
    rw [List.filter_filter]
    refine List.filter_congr fun d hd => ?_
    by_cases hbeq : pyStrip d.id = t
    · have htu : t ∉ (pruneMain c).unusedTreats := by
        rw [mem_unusedTreats]
        exact fun hc => hc.2 ht
      simp [hbeq, htu]
    · simp [hbeq]

lemma treatIsSurgery_pruned_eq {c : Corpus} {t : String} (ht : t ∈ (fixSt c).ut) :
    treatIsSurgery (pruned c) t = treatIsSurgery c t := by
  rw [treatIsSurgery, treatIsSurgery, treatDefs_pruned ht]

lemma treatComplications_pruned_eq {c : Corpus} {t : String} (ht : t ∈ (fixSt c).ut) :
    treatComplications (pruned c) t = treatComplications c t := by
  rw [treatComplications, treatComplications, treatDefs_pruned ht]

/-- For a used exam, the surviving adjacency is the full adjacency: every
incident edge has a used declarer, which is therefore not deleted. -/
lemma examAdj_pruned_eq {c : Corpus} {a : String} (ha : a ∈ (fixSt c).ue) :
    examAdj (pruned c) a = examAdj c a := by
  refine subset_antisymm (examAdj_pruned_le c a) ?_
  intro x hx
  rw [mem_examAdj] at hx ⊢
  rcases hx with ⟨hne, d, hd, hid, hp⟩ | ⟨d, hd, hid, hne, hp⟩
  · refine Or.inl ⟨hne, d, mem_pruned_exams.2 ⟨hd, fun _ => ?_⟩, hid, hp⟩
    rw [hid]
    exact ha
  · refine Or.inr ⟨d, mem_pruned_exams.2 ⟨hd, fun _ => ?_⟩, hid, hne, hp⟩
    rw [hid]
    exact (fixSt_closed c).adj a ha (mem_examAdj.2 (Or.inr ⟨d, hd, hid, hne, hp⟩))

lemma fixSt_pruned_le (c : Corpus) :
    stLE (fixSt (pruned c)) ⟨(fixSt c).ks, (fixSt c).ue, (fixSt c).ut⟩ := by
  refine fixSt_least ?_
  exact
    { seedS := (fixSt_closed c).seedS
      seedE := (fixSt_closed c).seedE
      seedT := (fixSt_closed c).seedT
      collapse := fun s hs =>
        (symptomCollapse_pruned_le c s).trans ((fixSt_closed c).collapse s hs)
      symExams := fun s hs =>
        (symptomToExams_pruned_le c s).trans ((fixSt_closed c).symExams s hs)
      symTreats := fun s hs =>
        (symptomToTreats_pruned_le c s).trans ((fixSt_closed c).symTreats s hs)
      adj := fun e he => (examAdj_pruned_le c e).trans ((fixSt_closed c).adj e he)
      surgery := fun t ht hs => (treatComplications_pruned_le c t).trans
        ((fixSt_closed c).surgery t ht (treatIsSurgery_pruned_le hs)) }

lemma fixSt_le_pruned (c : Corpus) :
    stLE (fixSt c)
      ⟨(fixSt (pruned c)).ks, (fixSt (pruned c)).ue, (fixSt (pruned c)).ut⟩ := by
  have hle := fixSt_pruned_le c
  refine fixSt_least ?_
  refine ⟨(fixSt_closed (pruned c)).seedS, (fixSt_closed (pruned c)).seedE,
    (fixSt_closed (pruned c)).seedT, ?_, ?_, ?_, ?_, ?_⟩
  · intro s hs
    rw [← symptomCollapse_pruned_eq (hle.1 hs)]
    exact (fixSt_closed (pruned c)).collapse s hs
  · intro s hs
    rw [← symptomToExams_pruned_eq (hle.1 hs)]
    exact (fixSt_closed (pruned c)).symExams s hs
  · intro s hs
    rw [← symptomToTreats_pruned_eq (hle.1 hs)]
    exact (fixSt_closed (pruned c)).symTreats s hs
  · intro e he
    rw [← examAdj_pruned_eq (hle.2.1 he)]
    exact (fixSt_closed (pruned c)).adj e he
  · intro t ht hsurg
    rw [← treatComplications_pruned_eq (hle.2.2 ht)]
    refine (fixSt_closed (pruned c)).surgery t ht ?_
    rw [treatIsSurgery_pruned_eq (hle.2.2 ht)]
    exact hsurg

/-- Re-running the closure on the pruned corpus computes the same fixed
point. -/
lemma fixSt_pruned (c : Corpus) : fixSt (pruned c) = fixSt c := by
  have h1 := fixSt_pruned_le c
  have h2 := fixSt_le_pruned c
  ext x
  · exact ⟨fun h => h1.1 h, fun h => h2.1 h⟩
  · exact ⟨fun h => h1.2.1 h, fun h => h2.2.1 h⟩
  · exact ⟨fun h => h1.2.2 h, fun h => h2.2.2 h⟩

lemma definedSymptoms_pruned (c : Corpus) :
    definedSymptoms (pruned c) = definedSymptoms c ∩ (fixSt c).ks := by
  ext x
  rw [Finset.mem_inter, mem_definedSymptoms, mem_definedSymptoms]
  constructor
  · rintro ⟨⟨d, hd, hid⟩, hne⟩
    obtain ⟨hdc, himp⟩ := mem_pruned_symptoms.1 hd
    have hxdef : x ∈ definedSymptoms c := mem_definedSymptoms.2 ⟨⟨d, hdc, hid⟩, hne⟩
    refine ⟨⟨⟨d, hdc, hid⟩, hne⟩, ?_⟩
    rw [hid] at himp
    exact himp hxdef
  · rintro ⟨⟨⟨d, hd, hid⟩, hne⟩, hks⟩
    refine ⟨⟨d, mem_pruned_symptoms.2 ⟨hd, fun _ => ?_⟩, hid⟩, hne⟩
    rw [hid]
    exact hks

lemma definedExams_pruned (c : Corpus) :
    definedExams (pruned c) = definedExams c ∩ (fixSt c).ue := by
  ext x
  rw [Finset.mem_inter, mem_definedExams, mem_definedExams]
  constructor
  · rintro ⟨⟨d, hd, hid⟩, hne⟩
    obtain ⟨hdc, himp⟩ := mem_pruned_exams.1 hd
    have hxdef : x ∈ definedExams c := mem_definedExams.2 ⟨⟨d, hdc, hid⟩, hne⟩
    refine ⟨⟨⟨d, hdc, hid⟩, hne⟩, ?_⟩
    rw [hid] at himp
    exact himp hxdef
  · rintro ⟨⟨⟨d, hd, hid⟩, hne⟩, hue⟩
    refine ⟨⟨d, mem_pruned_exams.2 ⟨hd, fun _ => ?_⟩, hid⟩, hne⟩
    rw [hid]
    exact hue

lemma definedTreats_pruned (c : Corpus) :
    definedTreats (pruned c) = definedTreats c ∩ (fixSt c).ut := by
  ext x
  rw [Finset.mem_inter, mem_definedTreats, mem_definedTreats]
  constructor
  · rintro ⟨⟨d, hd, hid⟩, hne⟩
    obtain ⟨hdc, himp⟩ := mem_pruned_treats.1 hd
    have hxdef : x ∈ definedTreats c := mem_definedTreats.2 ⟨⟨d, hdc, hid⟩, hne⟩
    refine ⟨⟨⟨d, hdc, hid⟩, hne⟩, ?_⟩
    rw [hid] at himp
    exact himp hxdef
  · rintro ⟨⟨⟨d, hd, hid⟩, hne⟩, hut⟩
    refine ⟨⟨d, mem_pruned_treats.2 ⟨hd, fun _ => ?_⟩, hid⟩, hne⟩
    rw [hid]
    exact hut

/-- C2: the pruning computation is idempotent — recomputing on the same
corpus yields the same deletion lists, and recomputing on the corpus
obtained by applying the deletions yields empty deletion lists for all
three kinds. -/
theorem c2_idempotence (c : Corpus) :
    pruneMain c = pruneMain c ∧
    (pruneMain (applyDeletions c (pruneMain c))).unusedSymptoms = [] ∧
    (pruneMain (applyDeletions c (pruneMain c))).unusedExams = [] ∧
    (pruneMain (applyDeletions c (pruneMain c))).unusedTreats = [] := by
  refine ⟨rfl, ?_, ?_, ?_⟩
  · show ((definedSymptoms (pruned c)) \ (fixSt (pruned c)).ks).sort _ = []
    rw [definedSymptoms_pruned, fixSt_pruned]
    have h : (definedSymptoms c ∩ (fixSt c).ks) \ (fixSt c).ks = ∅ := by
      ext x
      simp [Finset.mem_sdiff]
    rw [h]
    exact Finset.sort_empty _
  · show ((definedExams (pruned c)) \ (fixSt (pruned c)).ue).sort _ = []
    rw [definedExams_pruned, fixSt_pruned]
    have h : (definedExams c ∩ (fixSt c).ue) \ (fixSt c).ue = ∅ := by
      ext x
      simp [Finset.mem_sdiff]
    rw [h]
    exact Finset.sort_empty _
  · show ((definedTreats (pruned c)) \ (fixSt (pruned c)).ut).sort _ = []
    rw [definedTreats_pruned, fixSt_pruned]
    have h : (definedTreats c ∩ (fixSt c).ut) \ (fixSt c).ut = ∅ := by
      ext x
      simp [Finset.mem_sdiff]
    rw [h]
    exact Finset.sort_empty _

end HAO
